import Mathlib

/-!
# Timer queues: shallow embedding of the three timer-queue strategies

This file embeds the three timer-queue implementations of the repository
(`lst_timer.hpp` and `time_heap_timer.hpp`) in Lean:

* `sort_timer_lst` — the ascending doubly-linked list, modelled as a
  `List util_timer` in list order (head first);
* `time_heap` — the binary min-heap, modelled as the occupied prefix of the
  backing array (`arr : List heap_timer`, index `i`'s parent at `(i-1)/2`)
  plus the declared `capacity`;
* `time_wheel` — the hashed time wheel, modelled as the list of `N = 60`
  bucket lists plus the current-slot index.

Times (`time_t expire`, the `now` read from `time(NULL)` inside `tick`) are
modelled as `Int` and passed explicitly to `tick`.  The opaque callback /
`client_data` pair is modelled as a `user_data : Nat` payload; `tick`
returns the list of timer records whose callback it invoked, in invocation
order.  The heap's nullable `cb_func` (lazy cancellation) is modelled as a
`cb : Bool` flag.  Nullable timer-pointer arguments are modelled as
`Option` wrappers (`none` = null pointer).  Handles to records living in a
container are modelled by position (list index / heap array index).
-/

set_option linter.unusedVariables false

namespace TimerQueues

/-- Array read `arr[i]` with a default, mirroring a raw array read at an index
that is in bounds in all reachable uses. -/
def nth {α : Type} [Inhabited α] (l : List α) (i : Nat) : α := l.getD i default

theorem nth_set_self {α : Type} [Inhabited α] {l : List α} {i : Nat} {a : α}
    (h : i < l.length) : nth (l.set i a) i = a := by
  unfold nth
  rw [List.getD_eq_getElem?_getD, List.getElem?_set_self h]
  rfl

theorem nth_set_ne {α : Type} [Inhabited α] {l : List α} {i j : Nat} {a : α}
    (h : i ≠ j) : nth (l.set i a) j = nth l j := by
  unfold nth
  rw [List.getD_eq_getElem?_getD, List.getElem?_set_ne h, ← List.getD_eq_getElem?_getD]

theorem nth_append_left {α : Type} [Inhabited α] {l l' : List α} {i : Nat}
    (h : i < l.length) : nth (l ++ l') i = nth l i := by
  unfold nth
  rw [List.getD_eq_getElem?_getD, List.getElem?_append, if_pos h,
    ← List.getD_eq_getElem?_getD]

theorem nth_snoc_self {α : Type} [Inhabited α] {l : List α} {a : α} :
    nth (l ++ [a]) l.length = a := by
  unfold nth
  rw [List.getD_eq_getElem?_getD, List.getElem?_append, if_neg (by omega)]
  simp

theorem nth_eq_getElem {α : Type} [Inhabited α] {l : List α} {i : Nat}
    (h : i < l.length) : nth l i = l[i] := by
  unfold nth
  rw [List.getD_eq_getElem?_getD, List.getElem?_eq_getElem h]
  rfl

theorem nth_mem {α : Type} [Inhabited α] {l : List α} {i : Nat}
    (h : i < l.length) : nth l i ∈ l := by
  rw [nth_eq_getElem h]
  exact List.getElem_mem h

theorem nth_dropLast {α : Type} [Inhabited α] {l : List α} {i : Nat}
    (h : i < l.length - 1) : nth l.dropLast i = nth l i := by
  unfold nth
  rw [List.dropLast_eq_take, List.getD_eq_getElem?_getD, List.getElem?_take,
    if_pos h, ← List.getD_eq_getElem?_getD]

theorem nth_cons_zero {α : Type} [Inhabited α] {x : α} {xs : List α} :
    nth (x :: xs) 0 = x := rfl

theorem nth_cons_succ {α : Type} [Inhabited α] {x : α} {xs : List α} {n : Nat} :
    nth (x :: xs) (n + 1) = nth xs n := List.getD_cons_succ

theorem set_nth_self {α : Type} [Inhabited α] {l : List α} {i : Nat}
    (h : i < l.length) : l.set i (nth l i) = l := by
  rw [nth_eq_getElem h]
  apply List.ext_getElem?
  intro j
  rw [List.getElem?_set]
  split
  · next he => subst he; exact (List.getElem?_eq_getElem h).symm
  · rfl

/-- Writing `b` at `k` and consing `a` is a permutation of writing `a` at
`k` and consing `b`, provided `k` is in bounds. -/
theorem perm_cons_set {α : Type} {l : List α} {k : Nat} {a b : α}
    (h : k < l.length) : (a :: l.set k b).Perm (b :: l.set k a) := by
  induction l generalizing k with
  | nil => simp at h
  | cons x xs ih =>
    cases k with
    | zero => simpa using List.Perm.swap b a xs
    | succ k =>
      have hk : k < xs.length := by simpa using h
      rw [List.set_cons_succ, List.set_cons_succ]
      exact ((List.Perm.swap x a _).trans
        (List.Perm.cons x (ih hk))).trans (List.Perm.swap b x _)

/-! ## Sorted-list timer (`lst_timer.hpp`) -/

/-- Record `util_timer`: expiry (absolute time) plus the opaque callback payload. -/
structure util_timer where
  expire : Int
  user_data : Nat
deriving DecidableEq

instance : Inhabited util_timer := ⟨⟨0, 0⟩⟩

namespace sort_timer_lst

/-- The private overload `add_timer(timer, lst_head)`: insert `t` into the
part of the list strictly after `lst_head`; the argument list holds the
nodes after `lst_head`, and the result is reattached behind it.  Walks
until the first node whose expiry is strictly greater, else appends at the
tail. -/
def add_timer_from (t : util_timer) : List util_timer → List util_timer
  | [] => [t]
  | x :: xs =>
    if t.expire < x.expire then t :: x :: xs
    else x :: add_timer_from t xs

/-- Operation `sort_timer_lst::add_timer(timer)`: empty list, new head, or insertion
via the private overload starting at the head. -/
def add_timer (l : List util_timer) (t : util_timer) : List util_timer :=
  match l with
  | [] => [t]
  | h :: rest =>
    if t.expire < h.expire then t :: h :: rest
    else h :: add_timer_from t rest

/-- Null-guarded entry point (`if(!timer) return;`). -/
def add_timer_opt (l : List util_timer) (t : Option util_timer) : List util_timer :=
  match t with
  | none => l
  | some t => add_timer l t

/-- Operation `sort_timer_lst::adjust_timer(timer)` where the timer to reposition is
the node at index `i` (its `expire` field has already been mutated by the
caller): if it has no successor or is still below its successor, do
nothing; otherwise detach it and reinsert it into the part of the list
after its old successor (both the head-node and interior branches of the
source reduce to this). -/
def adjust_timer (l : List util_timer) (i : Nat) : List util_timer :=
  if i + 1 < l.length then
    if (nth l i).expire < (nth l (i + 1)).expire then l
    else l.take i ++ nth l (i + 1) :: add_timer_from (nth l i) (l.drop (i + 2))
  else l

/-- Null-guarded `adjust_timer`. -/
def adjust_timer_opt (l : List util_timer) (i : Option Nat) : List util_timer :=
  match i with
  | none => l
  | some i => adjust_timer l i

/-- Operation `sort_timer_lst::del_timer(timer)` for the node at index `i`: the four
unlinking branches (sole node, head, tail, interior) all amount to removing
the node. -/
def del_timer (l : List util_timer) (i : Nat) : List util_timer := l.eraseIdx i

/-- Null-guarded `del_timer`. -/
def del_timer_opt (l : List util_timer) (i : Option Nat) : List util_timer :=
  match i with
  | none => l
  | some i => del_timer l i

/-- Operation `sort_timer_lst::tick()`: with `cur` the value read from `time(NULL)`,
fire-and-unlink from the head while `expire <= cur`; stop at the first
future timer.  Returns (remaining list, fired records in firing order). -/
def tick (cur : Int) : List util_timer → List util_timer × List util_timer
  | [] => ([], [])
  | t :: rest =>
    if cur < t.expire then (t :: rest, [])
    else ((tick cur rest).1, t :: (tick cur rest).2)

/-- The ascending-order invariant of the list. -/
def sorted (l : List util_timer) : Prop :=
  List.Pairwise (fun a b => a.expire ≤ b.expire) l

instance : DecidablePred sorted := fun l =>
  List.instDecidablePairwise l

end sort_timer_lst

/-! ## Binary min-heap timer (`time_heap_timer.hpp`, class `time_heap`) -/

/-- Record `heap_timer`: expiry, nullable callback (`cb = false` models
`cb_func == nullptr`, i.e. a tombstone), opaque payload. -/
structure heap_timer where
  expire : Int
  cb : Bool
  user_data : Nat
deriving DecidableEq

instance : Inhabited heap_timer := ⟨⟨0, false, 0⟩⟩

/-- State `time_heap`: the occupied prefix `array[0..cur_size)` of the backing
array (`arr.length = cur_size`) and the declared capacity. -/
structure time_heap where
  arr : List heap_timer
  capacity : Nat
deriving DecidableEq

namespace time_heap

/-- The empty-heap constructor `time_heap(cap)`. -/
def mk_empty (cap : Nat) : time_heap := ⟨[], cap⟩

/-- Operation `time_heap::resize()`: capacity doubles; the occupied prefix is copied
unchanged. -/
def resize (h : time_heap) : time_heap := ⟨h.arr, 2 * h.capacity⟩

/-- The percolate-up loop of `time_heap::add_timer`: `hole` starts at the
freshly occupied position; while the parent's expiry exceeds the new
timer's, the parent moves down into the hole; finally the timer is written
at the hole. -/
def sift_up (l : List heap_timer) (t : heap_timer) (hole : Nat) : List heap_timer :=
  if hhole : hole = 0 then l.set 0 t
  else if (nth l ((hole - 1) / 2)).expire ≤ t.expire then l.set hole t
  else sift_up (l.set hole (nth l ((hole - 1) / 2))) t ((hole - 1) / 2)
termination_by hole
decreasing_by
  omega

/-- Operation `time_heap::add_timer(timer)` on a non-null timer: resize when full,
then insert at position `cur_size` and percolate up. -/
def add_timer (h : time_heap) (t : heap_timer) : time_heap :=
  let h := if h.capacity ≤ h.arr.length then resize h else h
  ⟨sift_up (h.arr ++ [t]) t h.arr.length, h.capacity⟩

/-- Operation `time_heap::add_timer` including the null check, which throws
`std::exception`. -/
def add_timer_opt (h : time_heap) (t : Option heap_timer) : Except Unit time_heap :=
  match t with
  | none => Except.error ()
  | some t => Except.ok (add_timer h t)

/-- Operation `time_heap::del_timer(timer)` on the record at array index `i`: lazy
cancellation, only the record's callback is nulled out. -/
def del_timer (h : time_heap) (i : Nat) : time_heap :=
  ⟨h.arr.set i { nth h.arr i with cb := false }, h.capacity⟩

/-- Null-guarded `del_timer` (`if(!timer) return;`). -/
def del_timer_opt (h : time_heap) (i : Option Nat) : time_heap :=
  match i with
  | none => h
  | some i => del_timer h i

/-- Predicate `time_heap::empty()`. -/
def empty (h : time_heap) : Bool := h.arr.length = 0

/-- Operation `time_heap::top()`: null on an empty heap, else `array[0]`. -/
def top (h : time_heap) : Option heap_timer :=
  if h.arr.isEmpty then none else some (nth h.arr 0)

/-- The child-selection step of `time_heap::percolate_down`: the left
child `2*hole+1`, bumped to the right child when that exists and has the
strictly smaller expiry. -/
def minChildIdx (l : List heap_timer) (hole : Nat) : Nat :=
  if 2 * hole + 2 < l.length ∧
      (nth l (2 * hole + 2)).expire < (nth l (2 * hole + 1)).expire
  then 2 * hole + 2 else 2 * hole + 1

theorem minChildIdx_gt (l : List heap_timer) (hole : Nat) :
    hole < minChildIdx l hole := by
  unfold minChildIdx; split <;> omega

theorem minChildIdx_lt_length (l : List heap_timer) (hole : Nat)
    (h : ¬ l.length ≤ 2 * hole + 1) : minChildIdx l hole < l.length := by
  unfold minChildIdx; split <;> omega

/-- The percolate-down loop of `time_heap::percolate_down(hole)`, with
`temp = array[hole]` saved by the caller: while the hole has a child
within `cur_size`, pick the smaller child; if it is smaller than `temp`,
move it up into the hole and descend, else stop; finally write `temp` at
the hole. -/
def perc_down (l : List heap_timer) (temp : heap_timer) (hole : Nat) : List heap_timer :=
  if hc : l.length ≤ 2 * hole + 1 then l.set hole temp
  else
    if (nth l (minChildIdx l hole)).expire < temp.expire then
      perc_down (l.set hole (nth l (minChildIdx l hole))) temp (minChildIdx l hole)
    else l.set hole temp
termination_by l.length - hole
decreasing_by
  have h1 := minChildIdx_gt l hole
  have h2 := minChildIdx_lt_length l hole hc
  simp only [List.length_set]
  omega

/-- Operation `time_heap::pop_timer()`: on a non-empty heap, destroy the root, move
the last element to position 0, shrink, and percolate down from the
root.  (The source's inner `if(array[0])` guard is always true here:
occupied slots hold real records.) -/
def pop_timer (h : time_heap) : time_heap :=
  if h.arr.isEmpty then h
  else
    let l := (h.arr.set 0 (nth h.arr (h.arr.length - 1))).dropLast
    ⟨perc_down l (nth l 0) 0, h.capacity⟩

theorem length_perc_down (l : List heap_timer) (temp : heap_timer) (hole : Nat) :
    (perc_down l temp hole).length = l.length := by
  induction l, temp, hole using perc_down.induct with
  | case1 l temp hole hc => rw [perc_down, dif_pos hc]; exact List.length_set ..
  | case2 l temp hole hc hlt ih =>
    rw [perc_down, dif_neg hc, if_pos hlt, ih, List.length_set]
  | case3 l temp hole hc hge =>
    rw [perc_down, dif_neg hc, if_neg hge]
    exact List.length_set ..

theorem length_pop_timer (h : time_heap) (hne : h.arr ≠ []) :
    (pop_timer h).arr.length = h.arr.length - 1 := by
  unfold pop_timer
  rw [if_neg (by simpa using hne)]
  simp [length_perc_down, List.length_dropLast]

/-- Operation `time_heap::tick()`: with `cur` the value read from `time(NULL)`,
repeatedly inspect the root; stop when the heap is empty or the root is in
the future; otherwise invoke the root's callback if present, pop it, and
continue.  Returns the new heap and the fired records in firing order. -/
def tick (cur : Int) (h : time_heap) : time_heap × List heap_timer :=
  match htop : top h with
  | none => (h, [])
  | some t =>
    if cur < t.expire then (h, [])
    else
      let r := tick cur (pop_timer h)
      (r.1, if t.cb then t :: r.2 else r.2)
termination_by h.arr.length
decreasing_by
  have hne : h.arr ≠ [] := by
    intro he
    simp [top, he] at htop
  rw [length_pop_timer h hne]
  have : h.arr.length ≠ 0 := fun h0 => hne (List.length_eq_zero.mp h0)
  omega

/-- The min-heap invariant on the occupied prefix: every non-root occupied
position is no smaller than its parent. -/
def heapProp (l : List heap_timer) : Prop :=
  ∀ i, i < l.length → 1 ≤ i → (nth l ((i - 1) / 2)).expire ≤ (nth l i).expire

instance (l : List heap_timer) : Decidable (heapProp l) :=
  Nat.decidableBallLT l.length fun i _ =>
    1 ≤ i → (nth l ((i - 1) / 2)).expire ≤ (nth l i).expire

/-- Invariant step for the percolate-up loop: if the array is heap-ordered
everywhere except possibly at `hole`, the parent of `hole` already bounds
the children of `hole`, and the inserted timer is bounded by the children
of `hole`, then `sift_up` produces a heap-ordered array. -/
theorem sift_up_heapProp (l : List heap_timer) (t : heap_timer) (hole : Nat)
    (hlen : hole < l.length)
    (h1 : ∀ i, i < l.length → 1 ≤ i → i ≠ hole →
      (nth l ((i - 1) / 2)).expire ≤ (nth l i).expire)
    (h2 : 1 ≤ hole → ∀ j, j < l.length → (j - 1) / 2 = hole →
      (nth l ((hole - 1) / 2)).expire ≤ (nth l j).expire)
    (h3 : ∀ j, j < l.length → 1 ≤ j → (j - 1) / 2 = hole →
      t.expire ≤ (nth l j).expire) :
    heapProp (sift_up l t hole) := by
  revert hlen h1 h2 h3
  induction l, t, hole using sift_up.induct with
  | case1 l t =>
    intro hlen h1 h2 h3
    rw [sift_up, dif_pos rfl]
    intro i hi h1i
    rw [List.length_set] at hi
    rw [nth_set_ne (by omega : (0 : Nat) ≠ i)]
    by_cases hp : (i - 1) / 2 = 0
    · rw [hp, nth_set_self (by omega)]
      exact h3 i hi h1i hp
    · rw [nth_set_ne (fun he => hp he.symm)]
      exact h1 i hi h1i (by omega)
  | case2 l t hole hhole hle =>
    intro hlen h1 h2 h3
    rw [sift_up, dif_neg hhole, if_pos hle]
    intro i hi h1i
    rw [List.length_set] at hi
    by_cases hih : i = hole
    · subst hih
      rw [nth_set_self (by omega), nth_set_ne (by omega : i ≠ (i - 1) / 2)]
      exact hle
    · by_cases hph : (i - 1) / 2 = hole
      · rw [nth_set_ne (fun he => hih he.symm), hph, nth_set_self hlen]
        exact h3 i hi h1i hph
      · rw [nth_set_ne (fun he => hih he.symm), nth_set_ne (fun he => hph he.symm)]
        exact h1 i hi h1i hih
  | case3 l t hole hhole hgt ih =>
    intro hlen h1 h2 h3
    rw [sift_up, dif_neg hhole, if_neg hgt]
    apply ih
    · rw [List.length_set]; omega
    · intro i hi h1i hip
      rw [List.length_set] at hi
      by_cases hih : i = hole
      · subst hih
        rw [nth_set_ne (by omega : i ≠ (i - 1) / 2), nth_set_self hlen]
      · by_cases hph : (i - 1) / 2 = hole
        · rw [nth_set_ne (fun he => hih he.symm), hph, nth_set_self hlen]
          exact h2 (by omega) i hi hph
        · rw [nth_set_ne (fun he => hih he.symm), nth_set_ne (fun he => hph he.symm)]
          exact h1 i hi h1i hih
    · intro hp1 j hj hjp
      rw [List.length_set] at hj
      rw [nth_set_ne (by omega : hole ≠ ((hole - 1) / 2 - 1) / 2)]
      by_cases hjh : j = hole
      · subst hjh
        rw [nth_set_self hlen]
        exact h1 _ (by omega) hp1 (by omega)
      · rw [nth_set_ne (fun he => hjh he.symm)]
        have hA := h1 ((hole - 1) / 2) (by omega) hp1 (by omega)
        have hB := h1 j hj (by omega) hjh
        rw [hjp] at hB
        exact le_trans hA hB
    · intro j hj h1j hjp
      rw [List.length_set] at hj
      by_cases hjh : j = hole
      · subst hjh
        rw [nth_set_self hlen]
        exact le_of_lt (not_le.mp hgt)
      · rw [nth_set_ne (fun he => hjh he.symm)]
        have hB := h1 j hj h1j hjh
        rw [hjp] at hB
        exact le_trans (le_of_lt (not_le.mp hgt)) hB

/-- Insertion `add_timer` preserves the min-heap invariant. -/
theorem heapProp_add_timer (h : time_heap) (t : heap_timer)
    (hp : heapProp h.arr) : heapProp (add_timer h t).arr := by
  have harr : (if h.capacity ≤ h.arr.length then resize h else h).arr = h.arr := by
    split <;> rfl
  show heapProp (sift_up ((if h.capacity ≤ h.arr.length then resize h else h).arr
    ++ [t]) t (if h.capacity ≤ h.arr.length then resize h else h).arr.length)
  rw [harr]
  apply sift_up_heapProp
  · simp
  · intro i hi h1i hih
    simp only [List.length_append, List.length_cons, List.length_nil] at hi
    rw [nth_append_left (by omega), nth_append_left (by omega)]
    exact hp i (by omega) h1i
  · intro h1 j hj hjp
    exfalso
    simp only [List.length_append, List.length_cons, List.length_nil] at hj
    omega
  · intro j hj h1j hjp
    exfalso
    simp only [List.length_append, List.length_cons, List.length_nil] at hj
    omega

theorem minChildIdx_parent (l : List heap_timer) (hole : Nat) :
    (minChildIdx l hole - 1) / 2 = hole := by
  unfold minChildIdx; split <;> omega

/-- The selected child has the smallest expiry among the valid children. -/
theorem minChildIdx_min (l : List heap_timer) (hole : Nat)
    (hc : ¬ l.length ≤ 2 * hole + 1) :
    ∀ i, i < l.length → (i = 2 * hole + 1 ∨ i = 2 * hole + 2) →
      (nth l (minChildIdx l hole)).expire ≤ (nth l i).expire := by
  intro i hi hcase
  unfold minChildIdx
  split
  · next hcond =>
    rcases hcase with he | he <;> subst he
    · exact le_of_lt hcond.2
    · exact le_refl _
  · next hcond =>
    push_neg at hcond
    rcases hcase with he | he <;> subst he
    · exact le_refl _
    · exact hcond hi

/-- Invariant step for the percolate-down loop: if the array is heap-ordered
on all pairs not touching `hole`, and the parent of `hole` bounds both
`temp` and the children of `hole`, then `perc_down` produces a heap-ordered
array. -/
theorem perc_down_heapProp (l : List heap_timer) (temp : heap_timer) (hole : Nat)
    (hlen : hole < l.length)
    (d1 : ∀ i, i < l.length → 1 ≤ i → i ≠ hole → (i - 1) / 2 ≠ hole →
      (nth l ((i - 1) / 2)).expire ≤ (nth l i).expire)
    (d2 : 1 ≤ hole → (nth l ((hole - 1) / 2)).expire ≤ temp.expire)
    (d3 : 1 ≤ hole → ∀ j, j < l.length → (j - 1) / 2 = hole →
      (nth l ((hole - 1) / 2)).expire ≤ (nth l j).expire) :
    heapProp (perc_down l temp hole) := by
  revert hlen d1 d2 d3
  induction l, temp, hole using perc_down.induct with
  | case1 l temp hole hc =>
    intro hlen d1 d2 d3
    rw [perc_down, dif_pos hc]
    intro i hi h1i
    rw [List.length_set] at hi
    by_cases hih : i = hole
    · subst hih
      rw [nth_set_self hlen, nth_set_ne (by omega : i ≠ (i - 1) / 2)]
      exact d2 h1i
    · by_cases hph : (i - 1) / 2 = hole
      · exfalso; omega
      · rw [nth_set_ne (fun he => hih he.symm), nth_set_ne (fun he => hph he.symm)]
        exact d1 i hi h1i hih hph
  | case2 l temp hole hc hlt ih =>
    intro hlen d1 d2 d3
    rw [perc_down, dif_neg hc, if_pos hlt]
    have hmgt := minChildIdx_gt l hole
    have hmlt := minChildIdx_lt_length l hole hc
    apply ih
    · rw [List.length_set]; exact hmlt
    · intro i hi h1i him hipm
      rw [List.length_set] at hi
      by_cases hih : i = hole
      · subst hih
        rw [nth_set_self hlen, nth_set_ne (by omega : i ≠ (i - 1) / 2)]
        exact d3 h1i _ hmlt (minChildIdx_parent l i)
      · by_cases hph : (i - 1) / 2 = hole
        · rw [nth_set_ne (fun he => hih he.symm), hph, nth_set_self hlen]
          exact minChildIdx_min l hole hc i hi (by omega)
        · rw [nth_set_ne (fun he => hih he.symm), nth_set_ne (fun he => hph he.symm)]
          exact d1 i hi h1i hih hph
    · intro h1m
      rw [minChildIdx_parent, nth_set_self hlen]
      exact le_of_lt hlt
    · intro h1m j hj hjm
      rw [List.length_set] at hj
      rw [minChildIdx_parent, nth_set_self hlen,
        nth_set_ne (by omega : hole ≠ j)]
      have hB := d1 j hj (by omega) (by omega) (by omega)
      rw [hjm] at hB
      exact hB
  | case3 l temp hole hc hge =>
    intro hlen d1 d2 d3
    rw [perc_down, dif_neg hc, if_neg hge]
    intro i hi h1i
    rw [List.length_set] at hi
    by_cases hih : i = hole
    · subst hih
      rw [nth_set_self hlen, nth_set_ne (by omega : i ≠ (i - 1) / 2)]
      exact d2 h1i
    · by_cases hph : (i - 1) / 2 = hole
      · rw [nth_set_ne (fun he => hih he.symm), hph, nth_set_self hlen]
        exact le_trans (not_lt.mp hge) (minChildIdx_min l hole hc i hi (by omega))
      · rw [nth_set_ne (fun he => hih he.symm), nth_set_ne (fun he => hph he.symm)]
        exact d1 i hi h1i hih hph

/-- Popping via `pop_timer` preserves the min-heap invariant. -/
theorem heapProp_pop_timer (h : time_heap) (hp : heapProp h.arr) :
    heapProp (pop_timer h).arr := by
  unfold pop_timer
  split
  · exact hp
  · next hne =>
    show heapProp (perc_down _ _ 0)
    by_cases hlen0 :
        ((h.arr.set 0 (nth h.arr (h.arr.length - 1))).dropLast).length = 0
    · intro i hi h1i
      rw [length_perc_down, hlen0] at hi
      omega
    · apply perc_down_heapProp
      · omega
      · intro i hi h1i hih hph
        rw [List.length_dropLast, List.length_set] at hi
        rw [nth_dropLast (by rw [List.length_set]; omega),
          nth_dropLast (by rw [List.length_set]; omega),
          nth_set_ne (by omega : (0 : Nat) ≠ i),
          nth_set_ne (by omega : (0 : Nat) ≠ (i - 1) / 2)]
        exact hp i (by omega) h1i
      · exact fun h10 => absurd h10 (by omega)
      · exact fun h10 => absurd h10 (by omega)

/-- Under the heap invariant, the root is a minimum (by array index). -/
theorem heapProp_nth_zero_le (l : List heap_timer) (hp : heapProp l) :
    ∀ i, i < l.length → (nth l 0).expire ≤ (nth l i).expire := by
  intro i
  induction i using Nat.strong_induction_on with
  | _ i ih =>
    intro hi
    rcases Nat.eq_zero_or_pos i with h0 | h1
    · subst h0; exact le_refl _
    · exact le_trans (ih ((i - 1) / 2) (by omega) (by omega)) (hp i hi h1)

/-- Under the heap invariant, the root is a minimum (by membership). -/
theorem heapProp_le_of_mem (l : List heap_timer) (hp : heapProp l)
    (u : heap_timer) (hu : u ∈ l) : (nth l 0).expire ≤ u.expire := by
  obtain ⟨i, hi, rfl⟩ := List.mem_iff_getElem.mp hu
  rw [← nth_eq_getElem hi]
  exact heapProp_nth_zero_le l hp i hi

/-- Exchanging the values written by two in-bounds `set`s at distinct
positions is a permutation. -/
theorem set_set_perm {α : Type} {l : List α} {i j : Nat} {a b : α}
    (hi : i < l.length) (hj : j < l.length) (hij : i ≠ j) :
    ((l.set i a).set j b).Perm ((l.set i b).set j a) := by
  induction l generalizing i j with
  | nil => simp at hi
  | cons x xs ih =>
    cases i with
    | zero =>
      cases j with
      | zero => exact absurd rfl hij
      | succ j =>
        simp only [List.set_cons_zero, List.set_cons_succ]
        exact perm_cons_set (by simpa using hj)
    | succ i =>
      cases j with
      | zero =>
        simp only [List.set_cons_zero, List.set_cons_succ]
        exact (perm_cons_set (by simpa using hi)).symm
      | succ j =>
        simp only [List.set_cons_succ]
        exact List.Perm.cons x (ih (by simpa using hi) (by simpa using hj) (by omega))

/-- Percolating down only permutes: its result is the array with `temp` written
at the hole, up to permutation. -/
theorem perc_down_perm (l : List heap_timer) (temp : heap_timer) (hole : Nat)
    (hlen : hole < l.length) :
    (perc_down l temp hole).Perm (l.set hole temp) := by
  revert hlen
  induction l, temp, hole using perc_down.induct with
  | case1 l temp hole hc =>
    intro hlen
    rw [perc_down, dif_pos hc]
  | case2 l temp hole hc hlt ih =>
    intro hlen
    rw [perc_down, dif_neg hc, if_pos hlt]
    have hmgt := minChildIdx_gt l hole
    have hmlt := minChildIdx_lt_length l hole hc
    refine (ih (by rw [List.length_set]; exact hmlt)).trans ?_
    refine (set_set_perm hlen hmlt (by omega)).trans ?_
    have hval : nth l (minChildIdx l hole)
        = nth (l.set hole temp) (minChildIdx l hole) :=
      (nth_set_ne (by omega)).symm
    rw [hval, set_nth_self (by rw [List.length_set]; exact hmlt)]
  | case3 l temp hole hc hge =>
    intro hlen
    rw [perc_down, dif_neg hc, if_neg hge]

/-- Popping removes exactly the root, up to permutation. -/
theorem pop_timer_perm (h : time_heap) (hne : h.arr ≠ []) :
    h.arr.Perm (nth h.arr 0 :: (pop_timer h).arr) := by
  unfold pop_timer
  rw [if_neg (by simpa using hne)]
  cases harr : h.arr with
  | nil => exact absurd harr hne
  | cons x rest =>
    by_cases hr : rest = []
    · subst hr
      rw [show ([x] : List heap_timer).length - 1 = 0 from rfl]
      simp only [List.set_cons_zero, List.dropLast_single]
      rw [perc_down, dif_pos (by simp)]
      simp [nth]
    · have hrl : 1 ≤ rest.length := by
        cases rest
        · exact absurd rfl hr
        · simp
      have hbl : nth (x :: rest) ((x :: rest).length - 1) = rest.getLast hr := by
        have h1 : (x :: rest).length - 1 = (rest.length - 1) + 1 := by
          simp only [List.length_cons]; omega
        rw [h1, nth_cons_succ, nth_eq_getElem (by omega), List.getLast_eq_getElem]
      have hset : ((x :: rest).set 0
            (nth (x :: rest) ((x :: rest).length - 1))).dropLast
          = rest.getLast hr :: rest.dropLast := by
        rw [hbl, List.set_cons_zero, List.dropLast_cons_of_ne_nil hr]
      show (x :: rest).Perm (nth (x :: rest) 0 :: perc_down _ _ 0)
      rw [hset, nth_cons_zero]
      have hlpos : 0 < (rest.getLast hr :: rest.dropLast).length := by simp
      have hperm := perc_down_perm (rest.getLast hr :: rest.dropLast)
        (nth (rest.getLast hr :: rest.dropLast) 0) 0 hlpos
      rw [set_nth_self hlpos] at hperm
      refine List.Perm.cons x (List.Perm.trans ?_ hperm.symm)
      conv_lhs => rw [← List.dropLast_append_getLast hr]
      exact List.perm_append_comm

theorem tick_none (cur : Int) (h : time_heap) (htop : top h = none) :
    tick cur h = (h, []) := by
  rw [tick]
  split
  · rfl
  · next t heq => rw [htop] at heq; cases heq

theorem tick_stop (cur : Int) (h : time_heap) (t : heap_timer)
    (htop : top h = some t) (hlt : cur < t.expire) : tick cur h = (h, []) := by
  rw [tick]
  split
  · rfl
  · next t' heq =>
    rw [htop] at heq
    cases heq
    rw [if_pos hlt]

theorem tick_step (cur : Int) (h : time_heap) (t : heap_timer)
    (htop : top h = some t) (hge : ¬ cur < t.expire) :
    tick cur h = ((tick cur (pop_timer h)).1,
      if t.cb then t :: (tick cur (pop_timer h)).2
      else (tick cur (pop_timer h)).2) := by
  rw [tick]
  split
  · next heq => rw [htop] at heq; cases heq
  · next t' heq =>
    rw [htop] at heq
    cases heq
    rw [if_neg hge]

theorem top_some_elim (h : time_heap) (t : heap_timer) (htop : top h = some t) :
    h.arr ≠ [] ∧ nth h.arr 0 = t := by
  unfold top at htop
  split at htop
  · cases htop
  · next hne => exact ⟨fun he => hne (by simp [he]), Option.some.inj htop⟩

/-- Ticking preserves the min-heap invariant. -/
theorem heapProp_tick (cur : Int) (h : time_heap) (hp : heapProp h.arr) :
    heapProp (tick cur h).1.arr := by
  revert hp
  induction h using tick.induct cur with
  | case1 h htop => intro hp; rw [tick_none cur h htop]; exact hp
  | case2 h t htop hlt => intro hp; rw [tick_stop cur h t htop hlt]; exact hp
  | case3 h t htop hge ih =>
    intro hp
    rw [tick_step cur h t htop hge]
    exact ih (heapProp_pop_timer h hp)

/-- Ticking pops a multiset of due records (each removed from the heap); the
fired records are exactly the popped ones whose callback is present. -/
theorem tick_popped (cur : Int) (h : time_heap) :
    ∃ popped : List heap_timer,
      h.arr.Perm (popped ++ (tick cur h).1.arr) ∧
      (tick cur h).2 = popped.filter (fun u => u.cb) ∧
      ∀ u ∈ popped, u.expire ≤ cur := by
  induction h using tick.induct cur with
  | case1 h htop =>
    refine ⟨[], ?_, ?_, by simp⟩
    · rw [tick_none cur h htop]
      simp
    · rw [tick_none cur h htop]
      rfl
  | case2 h t htop hlt =>
    refine ⟨[], ?_, ?_, by simp⟩
    · rw [tick_stop cur h t htop hlt]
      simp
    · rw [tick_stop cur h t htop hlt]
      rfl
  | case3 h t htop hge ih =>
    obtain ⟨popped, hperm, hfired, hdue⟩ := ih
    obtain ⟨hne, ht0⟩ := top_some_elim h t htop
    refine ⟨t :: popped, ?_, ?_, ?_⟩
    · rw [tick_step cur h t htop hge]
      refine (pop_timer_perm h hne).trans ?_
      rw [ht0]
      exact List.Perm.cons t hperm
    · rw [tick_step cur h t htop hge]
      show (if t.cb then t :: (tick cur (pop_timer h)).2
        else (tick cur (pop_timer h)).2) = _
      rw [hfired, List.filter_cons]
    · intro u hu
      rcases List.mem_cons.mp hu with he | hm
      · subst he; exact not_lt.mp hge
      · exact hdue u hm

/-- After `tick`, under the heap invariant every remaining record is in the
future (all due records, tombstoned or live, have been popped). -/
theorem tick_future (cur : Int) (h : time_heap) (hp : heapProp h.arr) :
    ∀ u ∈ (tick cur h).1.arr, cur < u.expire := by
  revert hp
  induction h using tick.induct cur with
  | case1 h htop =>
    intro hp u hu
    rw [tick_none cur h htop] at hu
    unfold top at htop
    split at htop
    · next hemp => rw [List.isEmpty_iff.mp hemp] at hu; cases hu
    · cases htop
  | case2 h t htop hlt =>
    intro hp u hu
    rw [tick_stop cur h t htop hlt] at hu
    obtain ⟨hne, ht0⟩ := top_some_elim h t htop
    have hroot := heapProp_le_of_mem h.arr hp u hu
    rw [ht0] at hroot
    exact lt_of_lt_of_le hlt hroot
  | case3 h t htop hge ih =>
    intro hp u hu
    rw [tick_step cur h t htop hge] at hu
    exact ih (heapProp_pop_timer h hp) u hu

/-- Cancellation `del_timer` does not touch any expiry, so it preserves the heap
invariant. -/
theorem heapProp_del_timer (h : time_heap) (i : Nat) (hp : heapProp h.arr) :
    heapProp (del_timer h i).arr := by
  have hexp : ∀ k,
      (nth (h.arr.set i { nth h.arr i with cb := false }) k).expire
        = (nth h.arr k).expire := by
    intro k
    by_cases hk : i = k
    · subst hk
      by_cases hi : i < h.arr.length
      · rw [nth_set_self hi]
      · rw [List.set_eq_of_length_le (by omega)]
    · rw [nth_set_ne hk]
  intro j hj h1j
  simp only [del_timer, List.length_set] at hj
  show (nth (h.arr.set i _) _).expire ≤ (nth (h.arr.set i _) j).expire
  rw [hexp, hexp]
  exact hp j hj h1j

/-- The heap states reachable from the empty-heap constructor by any
sequence of `add_timer`, `del_timer` and `tick` calls. -/
inductive reachable : time_heap → Prop where
  | start (cap : Nat) : reachable (mk_empty cap)
  | add {h : time_heap} (t : heap_timer) : reachable h → reachable (add_timer h t)
  | cancel {h : time_heap} (i : Nat) : reachable h → reachable (del_timer h i)
  | step {h : time_heap} (cur : Int) : reachable h → reachable (tick cur h).1

end time_heap

/-! ## Hashed time wheel (`time_heap_timer.hpp`, class `time_wheel`) -/

/-- Number of slots on the wheel (`static const int N = 60`). -/
def N : Nat := 60

/-- Slot interval in seconds (`static const int SI = 1`). -/
def SI : Nat := 1

/-- Record `tw_timer`: remaining full rotations, assigned slot, opaque payload. -/
structure tw_timer where
  rotation : Nat
  time_slot : Nat
  user_data : Nat
deriving DecidableEq

instance : Inhabited tw_timer := ⟨⟨0, 0, 0⟩⟩

/-- State `time_wheel`: the `N` bucket lists (index = slot, each list unordered,
head = most recently inserted) and the current slot. -/
structure time_wheel where
  slots : List (List tw_timer)
  cur_slot : Nat
deriving DecidableEq

namespace time_wheel

/-- The `time_wheel()` constructor: `N` empty buckets, current slot 0. -/
def mk_empty : time_wheel := ⟨List.replicate N [], 0⟩

/-- Operation `time_wheel::add_timer(timeout)`: negative timeouts are rejected with a
null result; otherwise `ticks = max(1, timeout/SI)` (sub-interval timeouts
round up to one tick), `rotation = ticks / N`, and — exactly as the source
computes it, without a final `% N` — `ts = cur_slot + (ticks % N)`; the new
record is pushed at the head of bucket `ts`.  (When `ts ≥ N` the source
indexes `slots[ts]` out of bounds; the model's `List.set` leaves the wheel
unchanged there.)  Returns the updated wheel and the created record. -/
def add_timer (w : time_wheel) (timeout : Int) (ud : Nat) :
    Option (time_wheel × tw_timer) :=
  if timeout < 0 then none
  else
    let t0 : Nat := timeout.toNat
    let ticks : Nat := if t0 < SI then 1 else t0 / SI
    let rotation : Nat := ticks / N
    let ts : Nat := w.cur_slot + ticks % N
    let timer : tw_timer := ⟨rotation, ts, ud⟩
    some (⟨w.slots.set ts (timer :: nth w.slots ts), w.cur_slot⟩, timer)

/-- Operation `time_wheel::del_timer(timer)` on a non-null timer: unlink the record
from its bucket (first occurrence, matching the pointed-to node). -/
def del_timer (w : time_wheel) (t : tw_timer) : time_wheel :=
  ⟨w.slots.set t.time_slot ((nth w.slots t.time_slot).erase t), w.cur_slot⟩

/-- Null-guarded `del_timer` (`if(!timer) return;`). -/
def del_timer_opt (w : time_wheel) (t : Option tw_timer) : time_wheel :=
  match t with
  | none => w
  | some t => del_timer w t

/-- The bucket walk inside `time_wheel::tick()`: a record with positive
rotation is decremented and kept; a record with rotation 0 fires and is
unlinked.  Returns (surviving bucket in order, fired records in firing
order). -/
def processBucket : List tw_timer → List tw_timer × List tw_timer
  | [] => ([], [])
  | t :: rest =>
    if 0 < t.rotation then
      ({ t with rotation := t.rotation - 1 } :: (processBucket rest).1,
        (processBucket rest).2)
    else ((processBucket rest).1, t :: (processBucket rest).2)

/-- Operation `time_wheel::tick()`: process the current slot's bucket, then advance
`cur_slot = (cur_slot + 1) % N`.  Returns the new wheel and the fired
records. -/
def tick (w : time_wheel) : time_wheel × List tw_timer :=
  (⟨w.slots.set w.cur_slot (processBucket (nth w.slots w.cur_slot)).1,
      (w.cur_slot + 1) % N⟩,
    (processBucket (nth w.slots w.cur_slot)).2)

/-- Iterated ticking: `n` successive `tick` calls, accumulating all fired records in firing
order. -/
def tickN : Nat → time_wheel → time_wheel × List tw_timer
  | 0, w => (w, [])
  | n + 1, w => ((tickN n (tick w).1).1, (tick w).2 ++ (tickN n (tick w).1).2)

/-- The spec's wheel round-trip scenario: schedule `timeout = 65` (payload
7) on a fresh wheel (current slot 0). -/
def sched65 : Option (time_wheel × tw_timer) := add_timer mk_empty 65 7

/-- The wheel state after the scenario's scheduling call. -/
def w65 : time_wheel := (sched65.getD (mk_empty, default)).1

/-- The record created by the scenario's scheduling call. -/
def t65 : tw_timer := (sched65.getD (mk_empty, default)).2

end time_wheel

/-! ## Sorted-list lemmas -/

theorem nth_append_right {α : Type} [Inhabited α] (A X : List α) (k : Nat) :
    nth (A ++ X) (A.length + k) = nth X k := by
  unfold nth
  rw [List.getD_eq_getElem?_getD, List.getElem?_append, if_neg (by omega),
    show A.length + k - A.length = k from by omega, ← List.getD_eq_getElem?_getD]

theorem nth_append_cons_zero {α : Type} [Inhabited α] (A X : List α) (x : α) :
    nth (A ++ x :: X) A.length = x := by
  have := nth_append_right A (x :: X) 0
  rwa [Nat.add_zero, nth_cons_zero] at this

theorem nth_append_cons_one {α : Type} [Inhabited α] (A X : List α) (x y : α) :
    nth (A ++ x :: y :: X) (A.length + 1) = y := by
  rw [nth_append_right A (x :: y :: X) 1, nth_cons_succ, nth_cons_zero]

theorem drop_append_cons_two {α : Type} (A X : List α) (x y : α) :
    (A ++ x :: y :: X).drop (A.length + 2) = X := by
  have he : A ++ x :: y :: X = (A ++ [x, y]) ++ X := by simp
  rw [he, show A.length + 2 = (A ++ [x, y]).length from by simp, List.drop_left]

namespace sort_timer_lst

theorem mem_add_timer_from (t : util_timer) (l : List util_timer)
    (x : util_timer) : x ∈ add_timer_from t l ↔ x = t ∨ x ∈ l := by
  induction l with
  | nil => simp [add_timer_from]
  | cons y ys ih =>
    rw [add_timer_from]
    split
    · simp [List.mem_cons]
    · simp only [List.mem_cons, ih]
      tauto

/-- The insertion walk keeps the list sorted. -/
theorem sorted_add_timer_from (t : util_timer) (l : List util_timer)
    (hl : sorted l) : sorted (add_timer_from t l) := by
  induction l with
  | nil => simp [add_timer_from, sorted]
  | cons y ys ih =>
    rw [add_timer_from]
    obtain ⟨hy, hys⟩ := List.pairwise_cons.mp hl
    split
    · next hlt =>
      refine List.Pairwise.cons ?_ hl
      intro b hb
      rcases List.mem_cons.mp hb with he | hm
      · subst he; exact le_of_lt hlt
      · exact le_trans (le_of_lt hlt) (hy b hm)
    · next hge =>
      refine List.Pairwise.cons ?_ (ih hys)
      intro b hb
      rcases (mem_add_timer_from t ys b).mp hb with he | hm
      · subst he; exact not_lt.mp hge
      · exact hy b hm

/-- The public `add_timer` coincides with the private insertion walk (the
new-head branch is the walk's first comparison). -/
theorem add_timer_eq_from (l : List util_timer) (t : util_timer) :
    add_timer l t = add_timer_from t l := by
  cases l <;> rfl

theorem sorted_add_timer (l : List util_timer) (t : util_timer)
    (hl : sorted l) : sorted (add_timer l t) := by
  rw [add_timer_eq_from]
  exact sorted_add_timer_from t l hl

theorem sorted_del_timer (l : List util_timer) (i : Nat) (hl : sorted l) :
    sorted (del_timer l i) :=
  List.Pairwise.sublist (List.eraseIdx_sublist l i) hl

/-- Ticking splits the list into the fired prefix and the remaining
suffix. -/
theorem tick_split (cur : Int) (l : List util_timer) :
    (tick cur l).2 ++ (tick cur l).1 = l := by
  induction l with
  | nil => rfl
  | cons t rest ih =>
    rw [tick]
    split
    · rfl
    · show (t :: (tick cur rest).2) ++ (tick cur rest).1 = t :: rest
      rw [List.cons_append, ih]

theorem tick_fired_due (cur : Int) (l : List util_timer) :
    ∀ u ∈ (tick cur l).2, u.expire ≤ cur := by
  induction l with
  | nil => simp [tick]
  | cons t rest ih =>
    intro u hu
    rw [tick] at hu
    split at hu
    · cases hu
    · next hge =>
      rcases List.mem_cons.mp hu with he | hm
      · subst he; exact not_lt.mp hge
      · exact ih u hm

theorem tick_rest_future (cur : Int) (l : List util_timer) (hl : sorted l) :
    ∀ u ∈ (tick cur l).1, cur < u.expire := by
  induction l with
  | nil => simp [tick]
  | cons t rest ih =>
    intro u hu
    rw [tick] at hu
    obtain ⟨hy, hys⟩ := List.pairwise_cons.mp hl
    split at hu
    · next hlt =>
      rcases List.mem_cons.mp hu with he | hm
      · subst he; exact hlt
      · exact lt_of_lt_of_le hlt (hy u hm)
    · exact ih hys u hu

theorem sorted_tick (cur : Int) (l : List util_timer) (hl : sorted l) :
    sorted (tick cur l).1 := by
  have hsub : (tick cur l).1.Sublist l := by
    conv_rhs => rw [← tick_split cur l]
    exact List.sublist_append_right _ _
  exact List.Pairwise.sublist hsub hl

/-- Adjusting a node with no successor does nothing. -/
theorem adjust_timer_eq_nil (A : List util_timer) (t : util_timer) :
    adjust_timer (A ++ [t]) A.length = A ++ [t] := by
  unfold adjust_timer
  rw [if_neg (by simp)]

/-- Adjusting an interior node: no move while still below the old
successor, otherwise reinsert into the part after the old successor. -/
theorem adjust_timer_eq_cons (A B' : List util_timer) (t s : util_timer) :
    adjust_timer (A ++ t :: s :: B') A.length =
      if t.expire < s.expire then A ++ t :: s :: B'
      else A ++ s :: add_timer_from t B' := by
  unfold adjust_timer
  rw [if_pos (by simp), nth_append_cons_zero, nth_append_cons_one,
    show A.length = (A : List util_timer).length from rfl, List.take_left,
    drop_append_cons_two]

/-- C6's adjust case: if the list was sorted before node `t`'s expiry was
increased (from `t₀.expire` to `t.expire`), `adjust_timer` re-establishes
sortedness. -/
theorem sorted_adjust_timer (A B : List util_timer) (t t0 : util_timer)
    (hinc : t0.expire ≤ t.expire) (hs : sorted (A ++ t0 :: B)) :
    sorted (adjust_timer (A ++ t :: B) A.length) := by
  cases B with
  | nil =>
    obtain ⟨hA, hTB, hAB⟩ := List.pairwise_append.mp hs
    rw [adjust_timer_eq_nil]
    rw [sorted, List.pairwise_append]
    refine ⟨hA, by simp, ?_⟩
    intro a ha b hb
    rcases List.mem_cons.mp hb with he | hm
    · subst he
      exact le_trans (hAB a ha t0 (by simp)) hinc
    · cases hm
  | cons s B' =>
    obtain ⟨hA, hTB, hAB⟩ := List.pairwise_append.mp hs
    obtain ⟨hT, hB⟩ := List.pairwise_cons.mp hTB
    obtain ⟨hsB, hB'⟩ := List.pairwise_cons.mp hB
    rw [adjust_timer_eq_cons]
    split
    · next hlt =>
      rw [sorted, List.pairwise_append]
      refine ⟨hA, ?_, ?_⟩
      · refine List.Pairwise.cons ?_ hB
        intro b hb
        rcases List.mem_cons.mp hb with he | hm
        · subst he; exact le_of_lt hlt
        · exact le_trans (le_of_lt hlt) (hsB b hm)
      · intro a ha b hb
        rcases List.mem_cons.mp hb with he | hm
        · subst he
          exact le_trans (hAB a ha t0 (by simp)) hinc
        · exact hAB a ha b (by simp [hm])
    · next hge =>
      rw [sorted, List.pairwise_append]
      refine ⟨hA, ?_, ?_⟩
      · refine List.Pairwise.cons ?_ (sorted_add_timer_from t B' hB')
        intro b hb
        rcases (mem_add_timer_from t B' b).mp hb with he | hm
        · subst he; exact not_lt.mp hge
        · exact hsB b hm
      · intro a ha b hb
        rcases List.mem_cons.mp hb with he | hm
        · subst he; exact hAB a ha b (by simp)
        · rcases (mem_add_timer_from t B' b).mp hm with he2 | hm2
          · subst he2
            exact le_trans (hAB a ha t0 (by simp)) hinc
          · exact hAB a ha b (by simp [hm2])

end sort_timer_lst

/-! ## Wheel lemmas -/

namespace time_wheel

/-- Characterization of the bucket walk: records with positive rotation
survive in order with the rotation decremented; records with rotation 0
fire, in bucket order. -/
theorem processBucket_eq (b : List tw_timer) :
    processBucket b =
      ((b.filter fun t => decide (0 < t.rotation)).map
          fun t => { t with rotation := t.rotation - 1 },
        b.filter fun t => decide (t.rotation = 0)) := by
  induction b with
  | nil => rfl
  | cons t rest ih =>
    by_cases h : 0 < t.rotation
    · have hne : ¬ t.rotation = 0 := by omega
      simp [processBucket, ih, h, hne]
    · have hz : t.rotation = 0 := by omega
      simp [processBucket, ih, h, hz]

theorem tick_fired (w : time_wheel) :
    (tick w).2 = (nth w.slots w.cur_slot).filter fun t => decide (t.rotation = 0) := by
  show (processBucket (nth w.slots w.cur_slot)).2 = _
  rw [processBucket_eq]

theorem tick_kept (w : time_wheel) (hc : w.cur_slot < w.slots.length) :
    nth (tick w).1.slots w.cur_slot =
      ((nth w.slots w.cur_slot).filter fun t => decide (0 < t.rotation)).map
        fun t => { t with rotation := t.rotation - 1 } := by
  show nth (w.slots.set w.cur_slot (processBucket (nth w.slots w.cur_slot)).1)
    w.cur_slot = _
  rw [nth_set_self hc, processBucket_eq]

theorem tick_other_slots (w : time_wheel) (j : Nat) (hj : j ≠ w.cur_slot) :
    nth (tick w).1.slots j = nth w.slots j :=
  nth_set_ne fun he => hj he.symm

theorem tick_cur_slot (w : time_wheel) :
    (tick w).1.cur_slot = (w.cur_slot + 1) % N := rfl

end time_wheel

/-! ## Heap reachability invariant -/

theorem heapProp_reachable (h : time_heap) (hr : time_heap.reachable h) :
    time_heap.heapProp h.arr := by
  induction hr with
  | start cap =>
    intro i hi h1i
    simp [time_heap.mk_empty] at hi
  | add t hr ih => exact time_heap.heapProp_add_timer _ t ih
  | cancel i hr ih => exact time_heap.heapProp_del_timer _ i ih
  | step cur hr ih => exact time_heap.heapProp_tick cur _ ih

theorem tick_fired_live_due (cur : Int) (h : time_heap) :
    ∀ u ∈ (time_heap.tick cur h).2, u.cb = true ∧ u.expire ≤ cur := by
  obtain ⟨popped, hperm, hfired, hdue⟩ := time_heap.tick_popped cur h
  intro u hu
  rw [hfired] at hu
  have hf := List.mem_filter.mp hu
  exact ⟨hf.2, hdue u hf.1⟩

/-! ## Claims -/

/-- C1: the claim says scheduling timeout `t` at current slot `c` always
creates a record with `slot = (c + max(1, t/SI)) mod N`.  The code computes
`ts = cur_slot + (ticks % N)` with no final `mod N`, contradicting the
file's own header comment `ts=(cs+(ti/si))%N`: at the reachable current
slot 59 (59 ticks from a fresh wheel), a timeout of 5 yields
`time_slot = 64`, outside the `N = 60` slots (an out-of-bounds `slots[64]`
write in the C++), where the documented slot is `(59 + 5) mod 60 = 4`. -/
theorem c1_wheel_slot_bug :
    (time_wheel.tickN 59 time_wheel.mk_empty).1.cur_slot = 59 ∧
    ((time_wheel.add_timer (time_wheel.tickN 59 time_wheel.mk_empty).1 5 0).map
        fun p => p.2.time_slot) = some 64 ∧
    ¬ 64 < N ∧ (59 + 5) % N = 4 :=
  ⟨rfl, rfl, by decide, rfl⟩

/-- C2 counterexample: passing a null timer to the heap's schedule
(`time_heap::add_timer`) is not a silent no-op — the source throws
`std::exception` (`if(!timer) throw ...`), modelled as `Except.error`. -/
theorem c2_null_schedule_raises :
    time_heap.add_timer_opt (time_heap.mk_empty 5) none = Except.error () := rfl

/-- C2 amended: a null/absent timer reference is a no-op for the heap's
cancel, the wheel's cancel, and the sorted list's schedule, adjust and
cancel; the heap's schedule (`add_timer`) instead raises an error on a null
timer. -/
theorem c2_null_noop :
    (∀ h : time_heap, time_heap.del_timer_opt h none = h) ∧
    (∀ w : time_wheel, time_wheel.del_timer_opt w none = w) ∧
    (∀ l : List util_timer, sort_timer_lst.add_timer_opt l none = l) ∧
    (∀ l : List util_timer, sort_timer_lst.adjust_timer_opt l none = l) ∧
    (∀ l : List util_timer, sort_timer_lst.del_timer_opt l none = l) ∧
    (∀ h : time_heap, time_heap.add_timer_opt h none = Except.error ()) :=
  ⟨fun _ => rfl, fun _ => rfl, fun _ => rfl, fun _ => rfl, fun _ => rfl,
   fun _ => rfl⟩

/-- C3 counterexample: in the wheel scenario (N = 60, SI = 1, current slot
0, timeout 65) the record is created with rotation 1 in slot 5, but after
65 `tick` calls the callback has not fired at all — refuting "after 65 tick
calls in total the scheduled callback has fired exactly once". -/
theorem c3_not_fired_after_65 :
    time_wheel.sched65.isSome = true ∧
    time_wheel.t65.rotation = 1 ∧ time_wheel.t65.time_slot = 5 ∧
    (time_wheel.tickN 65 time_wheel.w65).2 = [] :=
  ⟨rfl, rfl, rfl, rfl⟩

/-- C3 amended: scheduling timeout 65 on a fresh wheel creates a record
with rotation 1 in slot 5; no callback fires during the first 65 tick
calls (the rotation is decremented to 0 on the 6th tick, when the wheel
first passes slot 5); after 66 tick calls in total the callback has fired
exactly once. -/
theorem c3_wheel_scenario :
    time_wheel.sched65 = some (time_wheel.w65, time_wheel.t65) ∧
    time_wheel.t65.rotation = 1 ∧ time_wheel.t65.time_slot = 5 ∧
    (time_wheel.tickN 5 time_wheel.w65).2 = [] ∧
    (time_wheel.tickN 65 time_wheel.w65).2 = [] ∧
    (time_wheel.tickN 66 time_wheel.w65).2 = [⟨0, 5, 7⟩] :=
  ⟨rfl, rfl, rfl, rfl, rfl, rfl⟩

/-- C4 counterexample: `timeout = 0` is not rejected — the wheel's schedule
accepts it (the source only tests `timeout < 0`, and rounds sub-interval
timeouts up to one tick), refuting "every non-positive timeout is
rejected". -/
theorem c4_zero_timeout_accepted :
    (time_wheel.add_timer time_wheel.mk_empty 0 0).isSome = true := rfl

/-- C4 amended: every strictly negative timeout passed to the wheel's
schedule is rejected — no record is created, no bucket is modified, and the
caller receives a null handle. -/
theorem c4_negative_rejected (w : time_wheel) (timeout : Int) (ud : Nat)
    (hneg : timeout < 0) : time_wheel.add_timer w timeout ud = none := by
  unfold time_wheel.add_timer
  rw [if_pos hneg]

/-- Witness for C4 at the concrete timeout `-1`. -/
theorem c4_witness :
    ((-1 : Int) < 0) ∧
      time_wheel.add_timer time_wheel.mk_empty (-1) 0 = none :=
  ⟨by decide, c4_negative_rejected time_wheel.mk_empty (-1) 0 (by decide)⟩

/-- C5: after any sequence of `add_timer`, `del_timer` and `tick` calls
starting from an empty heap, the min-heap property holds — every non-root
occupied position's expiry is at least its parent's at `(i-1)/2`,
tombstoned (callback-absent) records included. -/
theorem c5_heap_invariant (h : time_heap) (hr : time_heap.reachable h) :
    time_heap.heapProp h.arr :=
  heapProp_reachable h hr

/-- Witness for C5 on a concrete reachable heap (two inserts, one tick). -/
theorem c5_witness :
    time_heap.heapProp (time_heap.tick 0 (time_heap.add_timer
      (time_heap.add_timer (time_heap.mk_empty 2) ⟨5, true, 0⟩)
      ⟨1, true, 1⟩)).1.arr :=
  c5_heap_invariant _ (time_heap.reachable.step 0
    (time_heap.reachable.add _ (time_heap.reachable.add _
      (time_heap.reachable.start 2))))

/-- C6: every sorted-list operation preserves ascending order — schedule
(`add_timer`), cancel (`del_timer`), `tick`, and `adjust_timer` under the
precondition that the adjusted record's expiry was only increased (the
list was sorted with the old, smaller expiry in place). -/
theorem c6_sorted_invariant :
    (∀ (l : List util_timer) (t : util_timer), sort_timer_lst.sorted l →
      sort_timer_lst.sorted (sort_timer_lst.add_timer l t)) ∧
    (∀ (l : List util_timer) (i : Nat), sort_timer_lst.sorted l →
      sort_timer_lst.sorted (sort_timer_lst.del_timer l i)) ∧
    (∀ (cur : Int) (l : List util_timer), sort_timer_lst.sorted l →
      sort_timer_lst.sorted (sort_timer_lst.tick cur l).1) ∧
    (∀ (A B : List util_timer) (t t0 : util_timer), t0.expire ≤ t.expire →
      sort_timer_lst.sorted (A ++ t0 :: B) →
      sort_timer_lst.sorted (sort_timer_lst.adjust_timer (A ++ t :: B) A.length)) :=
  ⟨sort_timer_lst.sorted_add_timer, sort_timer_lst.sorted_del_timer,
   sort_timer_lst.sorted_tick, sort_timer_lst.sorted_adjust_timer⟩

/-- Witness for C6 on concrete sorted lists. -/
theorem c6_witness :
    sort_timer_lst.sorted (sort_timer_lst.add_timer [⟨1, 0⟩, ⟨3, 1⟩] ⟨2, 2⟩) ∧
    sort_timer_lst.sorted (sort_timer_lst.del_timer [⟨1, 0⟩, ⟨3, 1⟩] 0) ∧
    sort_timer_lst.sorted (sort_timer_lst.tick 2 [⟨1, 0⟩, ⟨3, 1⟩]).1 ∧
    sort_timer_lst.sorted (sort_timer_lst.adjust_timer [⟨9, 0⟩, ⟨4, 1⟩] 0) :=
  ⟨c6_sorted_invariant.1 _ _ (by decide),
   c6_sorted_invariant.2.1 _ _ (by decide),
   c6_sorted_invariant.2.2.1 _ _ (by decide),
   c6_sorted_invariant.2.2.2 [] [⟨4, 1⟩] ⟨9, 0⟩ ⟨2, 1⟩ (by decide) (by decide)⟩

/-- C7: firing discipline of the three `tick`s.  Sorted list: `tick`
splits the list into the fired prefix (all due) and the remainder (all
strictly future when the list is sorted).  Heap: every fired record has a
live callback and is due; the fired records are the due popped records
with a callback, and the popped records are removed from the heap (so each
matured record fires at most once); under the heap invariant nothing due
remains after `tick`.  Wheel: the fired records are exactly the
rotation-0 records of the current bucket, the surviving bucket is the
positive-rotation records decremented, and no other bucket is touched. -/
theorem c7_firing :
    (∀ (cur : Int) (l : List util_timer),
      ((sort_timer_lst.tick cur l).2 ++ (sort_timer_lst.tick cur l).1 = l) ∧
      (∀ u ∈ (sort_timer_lst.tick cur l).2, u.expire ≤ cur) ∧
      (sort_timer_lst.sorted l →
        ∀ u ∈ (sort_timer_lst.tick cur l).1, cur < u.expire)) ∧
    (∀ (cur : Int) (h : time_heap),
      (∀ u ∈ (time_heap.tick cur h).2, u.cb = true ∧ u.expire ≤ cur) ∧
      (∃ popped, h.arr.Perm (popped ++ (time_heap.tick cur h).1.arr) ∧
        (time_heap.tick cur h).2 = popped.filter fun u => u.cb) ∧
      (time_heap.heapProp h.arr →
        ∀ u ∈ (time_heap.tick cur h).1.arr, cur < u.expire)) ∧
    (∀ w : time_wheel,
      ((time_wheel.tick w).2
        = (nth w.slots w.cur_slot).filter fun t => decide (t.rotation = 0)) ∧
      (w.cur_slot < w.slots.length →
        nth (time_wheel.tick w).1.slots w.cur_slot
          = ((nth w.slots w.cur_slot).filter
              fun t => decide (0 < t.rotation)).map
              fun t => { t with rotation := t.rotation - 1 }) ∧
      (∀ j, j ≠ w.cur_slot →
        nth (time_wheel.tick w).1.slots j = nth w.slots j)) := by
  refine ⟨?_, ?_, ?_⟩
  · intro cur l
    exact ⟨sort_timer_lst.tick_split cur l, sort_timer_lst.tick_fired_due cur l,
      fun hs => sort_timer_lst.tick_rest_future cur l hs⟩
  · intro cur h
    obtain ⟨popped, hperm, hfired, hdue⟩ := time_heap.tick_popped cur h
    exact ⟨tick_fired_live_due cur h, ⟨popped, hperm, hfired⟩,
      fun hp => time_heap.tick_future cur h hp⟩
  · intro w
    exact ⟨time_wheel.tick_fired w, fun hc => time_wheel.tick_kept w hc,
      fun j hj => time_wheel.tick_other_slots w j hj⟩

/-- Witness for C7, discharging the sortedness, heap-invariant, in-range
and distinct-slot hypotheses at concrete inputs. -/
theorem c7_witness :
    (sort_timer_lst.sorted [(⟨10, 0⟩ : util_timer), ⟨20, 1⟩] ∧
      ∀ u ∈ (sort_timer_lst.tick 15 [(⟨10, 0⟩ : util_timer), ⟨20, 1⟩]).1,
        (15 : Int) < u.expire) ∧
    (time_heap.heapProp (⟨[⟨2, true, 0⟩, ⟨5, true, 1⟩], 2⟩ : time_heap).arr ∧
      ∀ u ∈ (time_heap.tick 3
          (⟨[⟨2, true, 0⟩, ⟨5, true, 1⟩], 2⟩ : time_heap)).1.arr,
        (3 : Int) < u.expire) ∧
    (time_wheel.mk_empty.cur_slot < time_wheel.mk_empty.slots.length ∧
      nth (time_wheel.tick time_wheel.mk_empty).1.slots
          time_wheel.mk_empty.cur_slot
        = ((nth time_wheel.mk_empty.slots time_wheel.mk_empty.cur_slot).filter
            fun t => decide (0 < t.rotation)).map
            fun t => { t with rotation := t.rotation - 1 }) ∧
    ((1 : Nat) ≠ time_wheel.mk_empty.cur_slot ∧
      nth (time_wheel.tick time_wheel.mk_empty).1.slots 1
        = nth time_wheel.mk_empty.slots 1) :=
  ⟨⟨by decide, (c7_firing.1 15 _).2.2 (by decide)⟩,
   ⟨by decide, (c7_firing.2.1 3 _).2.2 (by decide)⟩,
   ⟨by decide, (c7_firing.2.2 _).2.1 (by decide)⟩,
   ⟨by decide, (c7_firing.2.2 _).2.2 1 (by decide)⟩⟩

/-- C8: the heap's cancel (`del_timer`) on a valid record only clears that
record's callback — capacity, occupied size, the record's expiry and
payload, and every other array slot are unchanged; a tombstoned record is
never fired by `tick` (fired records all have a live callback), and
popping removes exactly the root record, tombstoned or not. -/
theorem c8_lazy_cancel :
    (∀ (h : time_heap) (i : Nat), i < h.arr.length →
      (time_heap.del_timer h i).capacity = h.capacity ∧
      (time_heap.del_timer h i).arr.length = h.arr.length ∧
      nth (time_heap.del_timer h i).arr i = { nth h.arr i with cb := false } ∧
      ∀ j, j ≠ i → nth (time_heap.del_timer h i).arr j = nth h.arr j) ∧
    (∀ (cur : Int) (h : time_heap),
      ∀ u ∈ (time_heap.tick cur h).2, u.cb = true) ∧
    (∀ h : time_heap, h.arr ≠ [] →
      h.arr.Perm (nth h.arr 0 :: (time_heap.pop_timer h).arr)) := by
  refine ⟨?_, ?_, ?_⟩
  · intro h i hi
    refine ⟨rfl, by simp [time_heap.del_timer], nth_set_self hi, ?_⟩
    intro j hj
    exact nth_set_ne fun he => hj he.symm
  · intro cur h u hu
    exact (tick_fired_live_due cur h u hu).1
  · exact time_heap.pop_timer_perm

/-- Witness for C8 on a concrete one-record heap. -/
theorem c8_witness :
    ((0 : Nat) < (⟨[⟨4, true, 9⟩], 1⟩ : time_heap).arr.length ∧
      nth (time_heap.del_timer (⟨[⟨4, true, 9⟩], 1⟩ : time_heap) 0).arr 0
        = ⟨4, false, 9⟩) ∧
    ((⟨[⟨4, true, 9⟩], 1⟩ : time_heap).arr ≠ [] ∧
      (⟨[⟨4, true, 9⟩], 1⟩ : time_heap).arr.Perm
        (nth (⟨[⟨4, true, 9⟩], 1⟩ : time_heap).arr 0
          :: (time_heap.pop_timer (⟨[⟨4, true, 9⟩], 1⟩ : time_heap)).arr)) :=
  ⟨⟨by decide, (c8_lazy_cancel.1 _ 0 (by decide)).2.2.1⟩,
   ⟨by decide, c8_lazy_cancel.2.2 _ (by decide)⟩⟩

/-- C9: the sorted-list round-trip scenario — scheduling A(expire 10) then
B(expire 5) puts B first; after B's expiry is mutated to 20, `adjust_timer`
on B moves it after A; `tick` at time 15 fires A's callback and only A's,
leaving B in the list. -/
theorem c9_list_scenario :
    sort_timer_lst.add_timer (sort_timer_lst.add_timer [] ⟨10, 0⟩) ⟨5, 1⟩
      = [⟨5, 1⟩, ⟨10, 0⟩] ∧
    ([(⟨5, 1⟩ : util_timer), ⟨10, 0⟩].set 0 ⟨20, 1⟩ = [⟨20, 1⟩, ⟨10, 0⟩]) ∧
    sort_timer_lst.adjust_timer [⟨20, 1⟩, ⟨10, 0⟩] 0 = [⟨10, 0⟩, ⟨20, 1⟩] ∧
    sort_timer_lst.tick 15 [⟨10, 0⟩, ⟨20, 1⟩] = ([⟨20, 1⟩], [⟨10, 0⟩]) :=
  ⟨rfl, rfl, rfl, rfl⟩

/-- C10: on an empty heap `top` returns no timer and `pop_timer` leaves the
heap unchanged; popping the sole remaining record yields an empty heap on
which `top` again returns no timer. -/
theorem c10_empty_heap :
    (∀ cap : Nat, time_heap.top (time_heap.mk_empty cap) = none) ∧
    (∀ h : time_heap, h.arr = [] →
      time_heap.top h = none ∧ time_heap.pop_timer h = h) ∧
    (∀ (h : time_heap) (t : heap_timer), h.arr = [t] →
      (time_heap.pop_timer h).arr = [] ∧
      time_heap.top (time_heap.pop_timer h) = none) := by
  refine ⟨fun cap => rfl, ?_, ?_⟩
  · intro h harr
    obtain ⟨arr, cap⟩ := h
    have h2 : arr = [] := harr
    subst h2
    exact ⟨rfl, rfl⟩
  · intro h t harr
    obtain ⟨arr, cap⟩ := h
    have h2 : arr = [t] := harr
    subst h2
    have hpop : (time_heap.pop_timer ⟨[t], cap⟩).arr = [] := by
      show time_heap.perc_down
        ((([t] : List heap_timer).set 0
          (nth [t] (([t] : List heap_timer).length - 1))).dropLast) _ 0 = []
      rw [show ((([t] : List heap_timer).set 0
          (nth [t] (([t] : List heap_timer).length - 1))).dropLast) = []
        from by simp [nth]]
      rw [time_heap.perc_down, dif_pos (by simp)]
      rfl
    refine ⟨hpop, ?_⟩
    unfold time_heap.top
    rw [if_pos (by rw [hpop]; rfl)]

/-- Witness for C10 on concrete empty and one-record heaps. -/
theorem c10_witness :
    (time_heap.pop_timer ⟨[], 4⟩ = ⟨[], 4⟩) ∧
    ((time_heap.pop_timer ⟨[⟨3, true, 1⟩], 4⟩).arr = [] ∧
      time_heap.top (time_heap.pop_timer ⟨[⟨3, true, 1⟩], 4⟩) = none) :=
  ⟨(c10_empty_heap.2.1 ⟨[], 4⟩ rfl).2,
   c10_empty_heap.2.2 ⟨[⟨3, true, 1⟩], 4⟩ ⟨3, true, 1⟩ rfl⟩

end TimerQueues
